import Mathlib

/-!
Shallow embedding of the single-header BED record library (`NaTa_bed.hpp`).

A `Bed<TUPLETYPE>` object is a heterogeneous tuple of fields; supported field
types are `std::string` (modelled as `List Char`), `int32_t` (modelled as `Int`
with an explicit 32-bit range predicate where construction matters) and `char`
(modelled as `Char`).  The schema (the tuple of field types) is modelled as a
`List FieldTy` and a record as a `List FieldVal` that conforms to it.

The member functions embedded here:
* `Bed::get_string` / `Bed::to_string` (formatting, template recursion that
  appends each field and a tab, then `pop_back`s the trailing tab);
* `Bed::to_tuple` (parsing a vector of tokens into the tuple, using
  `std::stoi` for `int32_t` fields, the raw token for `std::string` fields and
  the token's first character for `char` fields);
* `Bed::get_obj` (read one line from a stream, split it on tabs, parse);
* `Bed::dump` (batch write, one formatted record plus newline each);
* `operator<` (lexicographic `std::tuple` comparison).
-/

namespace Bed

/-- The field types a schema may use: `std::string`, `int32_t`, `char`. -/
inductive FieldTy where
  | text
  | int32
  | ch
  deriving DecidableEq

/-- A field value of one of the supported types. -/
inductive FieldVal where
  | text (s : List Char)
  | int32 (n : Int)
  | ch (c : Char)
  deriving DecidableEq

/-- The type of a field value. -/
def tyOf : FieldVal → FieldTy
  | .text _ => .text
  | .int32 _ => .int32
  | .ch _ => .ch

/-- A record conforms to a schema when its fields have the schema's types. -/
abbrev conforms (r : List FieldVal) (sch : List FieldTy) : Prop :=
  r.map tyOf = sch

/-- The canonical 3-field schema: chromosome name, start, end. -/
def canonicalSchema : List FieldTy := [FieldTy.text, FieldTy.int32, FieldTy.int32]

/-- An `int32_t` field can only hold values in the 32-bit signed range; this is
what "constructible" means for integer fields. -/
def wfField : FieldVal → Bool
  | .int32 n => -2147483648 ≤ n ∧ n ≤ 2147483647
  | _ => true

/-- A field whose formatted token cannot contain a tab character: text fields
must not contain a tab, char fields must not be the tab character. -/
def tabFreeField : FieldVal → Bool
  | .text s => '\t' ∉ s
  | .int32 _ => true
  | .ch c => c ≠ '\t'

/-! ### Decimal formatting (`boost::convert` with `lexical_cast`) -/

/-- The ASCII digit character for a digit value. -/
def digitChar (d : Nat) : Char :=
  match d with
  | 0 => '0'
  | 1 => '1'
  | 2 => '2'
  | 3 => '3'
  | 4 => '4'
  | 5 => '5'
  | 6 => '6'
  | 7 => '7'
  | 8 => '8'
  | _ => '9'

/-- Fuel-driven decimal digit emitter (most significant digit first).  The
fuel only bounds the recursion depth; `natToChars` supplies enough. -/
def natToCharsAux : Nat → Nat → List Char → List Char
  | 0, _, acc => acc
  | fuel + 1, n, acc =>
    if n < 10 then digitChar n :: acc
    else natToCharsAux fuel (n / 10) (digitChar (n % 10) :: acc)

/-- The decimal representation of a natural number, no leading zeros. -/
def natToChars (n : Nat) : List Char := natToCharsAux (n + 1) n []

/-- Decimal representation of an `int32_t` value as produced by
`boost::lexical_cast<std::string>`: minus sign for negatives, then digits. -/
def intToChars (n : Int) : List Char :=
  if n < 0 then '-' :: natToChars (-n).toNat else natToChars n.toNat

/-- `boost::convert<std::string>` with `lexical_cast` on each supported field
type: strings verbatim, integers in decimal, chars as the one character. -/
def lexCast : FieldVal → List Char
  | .text s => s
  | .int32 n => intToChars n
  | .ch c => [c]

/-! ### `std::stoi` -/

/-- Whitespace skipped by `strtol` (hence `std::stoi`). -/
def isSpace (c : Char) : Bool :=
  c = ' ' || c = '\t' || c = '\n' || c = '\x0b' || c = '\x0c' || c = '\r'

/-- ASCII decimal digit test, as `strtol` uses in base 10. -/
def isDigitB (c : Char) : Bool := 48 ≤ c.toNat && c.toNat ≤ 57

/-- The number denoted by a list of decimal digit characters. -/
def charsVal (l : List Char) : Nat :=
  l.foldl (fun a c => 10 * a + (c.toNat - 48)) 0

/-- The two exceptions `std::stoi` can throw. -/
inductive StoiErr where
  | invalidArgument
  | outOfRange
  deriving DecidableEq

/-- The signed value denoted by a sign flag and a magnitude. -/
def signApply (neg : Bool) (m : Nat) : Int :=
  if neg then -(m : Int) else (m : Int)

/-- Digit consumption and range check of `std::stoi` after the optional sign:
no digit at all throws `std::invalid_argument`; a value outside the `int`
(32-bit) range throws `std::out_of_range`; otherwise the value of the longest
digit prefix is returned (trailing garbage is ignored). -/
def stoiCore (neg : Bool) (s2 : List Char) : Except StoiErr Int :=
  if s2.takeWhile isDigitB = [] then Except.error StoiErr.invalidArgument
  else if signApply neg (charsVal (s2.takeWhile isDigitB)) < -2147483648
      ∨ 2147483647 < signApply neg (charsVal (s2.takeWhile isDigitB)) then
    Except.error StoiErr.outOfRange
  else Except.ok (signApply neg (charsVal (s2.takeWhile isDigitB)))

/-- `std::stoi` in base 10: skip leading whitespace, read an optional sign,
then digits, with truncation at the first non-digit. -/
def stoi (s : List Char) : Except StoiErr Int :=
  match s.dropWhile isSpace with
  | [] => Except.error StoiErr.invalidArgument
  | c :: rest =>
    if c = '-' then stoiCore true rest
    else if c = '+' then stoiCore false rest
    else stoiCore false (c :: rest)

/-! ### Formatting: `Bed::get_string` and `Bed::to_string` -/

/-- `Bed::get_string<N>`: append each field's text and a tab, then at the
terminal position `pop_back` the trailing tab.  `pop_back` on the empty
string — reachable only with a zero-field schema — is undefined behaviour in
the source; `dropLast` is faithful only for schemas with at least one field,
and every theorem below about formatting carries that nonemptiness
hypothesis. -/
def get_string : List FieldVal → List Char → List Char
  | [], rhs => rhs.dropLast
  | f :: fs, rhs => get_string fs (rhs ++ (lexCast f ++ ['\t']))

/-- `Bed::to_string`: format the record starting from an empty string. -/
def to_string (r : List FieldVal) : List Char := get_string r []

/-! ### Parsing: `Bed::to_tuple`, `Bed::get_obj`, splitting -/

/-- The outcome of running `Bed::to_tuple`:
* `ok r` — all fields bound, final tuple state `r`;
* `exn e r` — `std::stoi` threw exception `e`; `r` is the tuple state at the
  throw (fields before the failing position are already overwritten);
* `oob r` — the code evaluated `rhs[N]` with `N` out of the token vector's
  bounds (undefined behaviour in the source); `r` is the tuple state then. -/
inductive ParseOutcome where
  | ok (r : List FieldVal)
  | exn (e : StoiErr) (r : List FieldVal)
  | oob (r : List FieldVal)
  deriving DecidableEq

/-- `Bed::to_tuple<N>`: walk the schema from position `n`, binding token
`rhs[n]` into field `n`: `stoi` for `int32_t` fields, the raw token for
string fields, the token's first character for `char` fields (on an empty
token, `std::string::operator[](0)` yields the null character). -/
def to_tuple : List FieldTy → Nat → List (List Char) → List FieldVal → ParseOutcome
  | [], _, _, i => .ok i
  | ty :: tys, n, rhs, i =>
    match rhs.get? n with
    | none => .oob i
    | some tok =>
      match ty with
      | .int32 =>
        match stoi tok with
        | .error e => .exn e i
        | .ok v => to_tuple tys (n + 1) rhs (i.set n (.int32 v))
      | .text => to_tuple tys (n + 1) rhs (i.set n (.text tok))
      | .ch =>
        match tok with
        | [] => to_tuple tys (n + 1) rhs (i.set n (.ch '\x00'))
        | c :: _ => to_tuple tys (n + 1) rhs (i.set n (.ch c))

/-- `boost::split` on `is_any_of ("\t")`: split a line into tokens at every
tab; the empty line yields one empty token. -/
def splitTab : List Char → List (List Char)
  | [] => [[]]
  | c :: rest =>
    if c = '\t' then [] :: splitTab rest
    else
      match splitTab rest with
      | [] => [[c]]
      | t :: ts => (c :: t) :: ts

/-- The outcome of `Bed::get_obj` on one call: either `getline` failed (end of
stream, record untouched) or a line was read and parsed. -/
inductive GetObjOutcome where
  | eof (r : List FieldVal)
  | line (o : ParseOutcome)
  deriving DecidableEq

/-- `Bed::get_obj`: an input stream is a list of remaining lines.  If a line
is available it is split on tabs and bound into the record by `to_tuple`;
otherwise the record is returned unchanged. -/
def get_obj (sch : List FieldTy) :
    List (List Char) → List FieldVal → List (List Char) × GetObjOutcome
  | [], i => ([], .eof i)
  | l :: rest, i => (rest, .line (to_tuple sch 0 (splitTab l) i))

/-- `Bed::dump`: accumulate `to_string` of each record followed by a newline,
in container order, and emit the accumulated string. -/
def dump (c : List (List FieldVal)) : List Char :=
  c.foldl (fun s i => s ++ (to_string i ++ ['\n'])) []

/-! ### Ordering: `operator<` -/

/-- `char` comparison (by character code, as the byte comparison inside
`std::char_traits` / `std::tuple`). -/
def charLtB (a b : Char) : Bool := a < b

/-- `std::string::operator<`: lexicographic comparison of the characters. -/
def strLtB : List Char → List Char → Bool
  | _, [] => false
  | [], _ :: _ => true
  | a :: as, b :: bs =>
    if charLtB a b then true else if charLtB b a then false else strLtB as bs

/-- Comparison of two field values of the same type by that type's natural
order (fields of different types never meet under one schema). -/
def fieldLt : FieldVal → FieldVal → Bool
  | .text a, .text b => strLtB a b
  | .int32 a, .int32 b => a < b
  | .ch a, .ch b => charLtB a b
  | _, _ => false

/-- `operator<` on `Bed`: `std::tuple::operator<`, the lexicographic
comparison of the field sequences. -/
def bedLt : List FieldVal → List FieldVal → Bool
  | _, [] => false
  | [], _ :: _ => true
  | a :: as, b :: bs =>
    if fieldLt a b then true else if fieldLt b a then false else bedLt as bs

/-- The tab-join of a token list: tokens separated by single tabs, no
trailing separator.  (Specification-side description of the wire format.) -/
def tabJoin : List (List Char) → List Char
  | [] => []
  | [t] => t
  | t :: ts => t ++ '\t' :: tabJoin ts

/-! ## Lemmas about decimal digits -/

theorem natToCharsAux_acc : ∀ (fuel n : Nat) (acc : List Char),
    natToCharsAux fuel n acc = natToCharsAux fuel n [] ++ acc := by
  intro fuel
  induction fuel with
  | zero => intro n acc; simp [natToCharsAux]
  | succ f ih =>
    intro n acc
    by_cases h : n < 10
    · simp [natToCharsAux, h]
    · simp only [natToCharsAux, h, if_false]
      rw [ih (n / 10) (digitChar (n % 10) :: acc), ih (n / 10) [digitChar (n % 10)]]
      simp

theorem natToCharsAux_fuel : ∀ (fuel fuel' n : Nat) (acc : List Char),
    n < fuel → n < fuel' →
    natToCharsAux fuel n acc = natToCharsAux fuel' n acc := by
  intro fuel
  induction fuel with
  | zero => intro fuel' n acc h; exact absurd h (Nat.not_lt_zero n)
  | succ f ih =>
    intro fuel' n acc h h'
    cases fuel' with
    | zero => exact absurd h' (Nat.not_lt_zero n)
    | succ f' =>
      by_cases hn : n < 10
      · simp [natToCharsAux, hn]
      · have hd : n / 10 < n := Nat.div_lt_self (by omega) (by omega)
        simp only [natToCharsAux, hn, if_false]
        exact ih f' (n / 10) (digitChar (n % 10) :: acc) (by omega) (by omega)

theorem natToChars_step (n : Nat) :
    natToChars n = if n < 10 then [digitChar n]
      else natToChars (n / 10) ++ [digitChar (n % 10)] := by
  by_cases h : n < 10
  · simp [natToChars, natToCharsAux, h]
  · have hd : n / 10 < n := Nat.div_lt_self (by omega) (by omega)
    rw [if_neg h]
    show natToCharsAux (n + 1) n [] = _
    simp only [natToCharsAux, h, if_false]
    rw [natToCharsAux_acc n (n / 10) [digitChar (n % 10)],
      natToCharsAux_fuel n (n / 10 + 1) (n / 10) [] (by omega) (by omega)]
    rfl

theorem digitChar_toNat {d : Nat} (h : d < 10) : (digitChar d).toNat = 48 + d := by
  interval_cases d <;> rfl

theorem isDigitB_digitChar {d : Nat} (h : d < 10) : isDigitB (digitChar d) = true := by
  interval_cases d <;> rfl

theorem isDigitB_ne {c : Char} (h : isDigitB c = true) :
    ∀ x : Char, x.toNat < 48 → c ≠ x := by
  have h48 : 48 ≤ c.toNat ∧ c.toNat ≤ 57 := by simpa [isDigitB] using h
  intro x hx hcx
  rw [hcx] at h48
  omega

theorem isDigitB_not_space {c : Char} (h : isDigitB c = true) : isSpace c = false := by
  have h1 := isDigitB_ne h ' ' (by decide)
  have h2 := isDigitB_ne h '\t' (by decide)
  have h3 := isDigitB_ne h '\n' (by decide)
  have h4 := isDigitB_ne h '\x0b' (by decide)
  have h5 := isDigitB_ne h '\x0c' (by decide)
  have h6 := isDigitB_ne h '\r' (by decide)
  simp [isSpace, h1, h2, h3, h4, h5, h6]

theorem natToChars_ne_nil (n : Nat) : natToChars n ≠ [] := by
  rw [natToChars_step]
  by_cases h : n < 10 <;> simp [h]

theorem natToChars_all_digit : ∀ n : Nat, (natToChars n).all isDigitB = true := by
  intro n
  induction n using Nat.strong_induction_on with
  | _ n ih =>
    rw [natToChars_step]
    by_cases h : n < 10
    · simp [h, isDigitB_digitChar h]
    · have hd : n / 10 < n := Nat.div_lt_self (by omega) (by omega)
      simp [h, List.all_append, ih (n / 10) hd,
        isDigitB_digitChar (Nat.mod_lt n (by omega))]

theorem foldl_natToChars : ∀ n a : Nat,
    (natToChars n).foldl (fun a c => 10 * a + (c.toNat - 48)) a
      = a * 10 ^ (natToChars n).length + n := by
  intro n
  induction n using Nat.strong_induction_on with
  | _ n ih =>
    intro a
    rw [natToChars_step]
    by_cases h : n < 10
    · simp [h, List.foldl, digitChar_toNat h]
      omega
    · have hd : n / 10 < n := Nat.div_lt_self (by omega) (by omega)
      have hm : 10 * (n / 10) + n % 10 = n := Nat.div_add_mod n 10
      simp only [h, if_false, List.foldl_append, List.length_append, List.foldl,
        List.length_cons, List.length_nil]
      rw [ih (n / 10) hd a, digitChar_toNat (Nat.mod_lt n (by omega))]
      have hsub : 48 + n % 10 - 48 = n % 10 := by omega
      rw [hsub]
      calc 10 * (a * 10 ^ (natToChars (n / 10)).length + n / 10) + n % 10
          = a * (10 ^ (natToChars (n / 10)).length * 10)
            + (10 * (n / 10) + n % 10) := by ring
        _ = a * 10 ^ ((natToChars (n / 10)).length + 1) + n := by
            rw [hm, pow_succ]

theorem charsVal_natToChars (n : Nat) : charsVal (natToChars n) = n := by
  have := foldl_natToChars n 0
  simpa [charsVal] using this

theorem tab_not_mem_natToChars (n : Nat) : '\t' ∉ natToChars n := by
  intro hmem
  have hall := natToChars_all_digit n
  rw [List.all_eq_true] at hall
  have := hall _ hmem
  exact absurd rfl (isDigitB_ne this '\t' (by decide))

/-! ## `stoi` applied to a formatted integer -/

theorem takeWhile_all {α : Type} {p : α → Bool} :
    ∀ l : List α, l.all p = true → l.takeWhile p = l := by
  intro l
  induction l with
  | nil => intro h; rfl
  | cons c cs ih =>
    intro h
    simp only [List.all_cons, Bool.and_eq_true] at h
    simp [List.takeWhile_cons, h.1, ih h.2]

theorem stoiCore_natToChars (neg : Bool) (m : Nat) :
    stoiCore neg (natToChars m)
      = if signApply neg m < -2147483648 ∨ 2147483647 < signApply neg m then
          Except.error StoiErr.outOfRange
        else Except.ok (signApply neg m) := by
  rw [stoiCore, takeWhile_all _ (natToChars_all_digit m),
    if_neg (natToChars_ne_nil m), charsVal_natToChars]

theorem stoi_intToChars {v : Int} (h1 : -2147483648 ≤ v) (h2 : v ≤ 2147483647) :
    stoi (intToChars v) = Except.ok v := by
  by_cases hv : v < 0
  · have hm : (((-v).toNat : Nat) : Int) = -v := Int.toNat_of_nonneg (by omega)
    rw [intToChars, if_pos hv]
    have hsp : isSpace '-' = false := by decide
    simp only [stoi, List.dropWhile_cons, hsp, Bool.false_eq_true, if_false, if_pos]
    rw [stoiCore_natToChars]
    have hval : signApply true (-v).toNat = v := by
      simp only [signApply, if_pos]
      omega
    rw [hval, if_neg (by omega)]
  · rw [intToChars, if_neg hv]
    obtain ⟨c, rest, hcr⟩ := List.exists_cons_of_ne_nil (natToChars_ne_nil v.toNat)
    have hcd : isDigitB c = true := by
      have hall := natToChars_all_digit v.toNat
      rw [hcr] at hall
      simp [List.all_cons] at hall
      exact hall.1
    have hsp := isDigitB_not_space hcd
    have hminus : c ≠ '-' := isDigitB_ne hcd '-' (by decide)
    have hplus : c ≠ '+' := isDigitB_ne hcd '+' (by decide)
    rw [hcr]
    simp only [stoi, List.dropWhile_cons, hsp, Bool.false_eq_true, if_false]
    rw [if_neg hminus, if_neg hplus, ← hcr, stoiCore_natToChars]
    have hval : signApply false v.toNat = v := by
      simp only [signApply, if_neg Bool.false_ne_true]
      omega
    rw [hval, if_neg (by omega)]

/-! ## Formatting lemmas -/

theorem get_string_eq : ∀ (fs : List FieldVal) (rhs : List Char),
    get_string fs rhs
      = (rhs ++ (fs.map fun f => lexCast f ++ ['\t']).flatten).dropLast := by
  intro fs
  induction fs with
  | nil => intro rhs; simp [get_string]
  | cons f fs ih =>
    intro rhs
    rw [get_string, ih]
    simp [List.append_assoc]

theorem joinTab_dropLast : ∀ ts : List (List Char), ts ≠ [] →
    ((ts.map fun t => t ++ ['\t']).flatten).dropLast = tabJoin ts := by
  intro ts
  induction ts with
  | nil => intro h; exact absurd rfl h
  | cons t ts ih =>
    intro _
    cases ts with
    | nil =>
      show ((t ++ ['\t']) ++ []).dropLast = t
      rw [List.append_nil, List.dropLast_append_of_ne_nil t (by simp)]
      simp
    | cons t2 ts2 =>
      have hne : ((t2 :: ts2).map fun t => t ++ ['\t']).flatten ≠ [] := by
        simp
      show ((t ++ ['\t']) ++ ((t2 :: ts2).map fun t => t ++ ['\t']).flatten).dropLast
          = t ++ '\t' :: tabJoin (t2 :: ts2)
      rw [List.dropLast_append_of_ne_nil _ hne, ih (by simp)]
      simp

theorem to_string_eq (r : List FieldVal) (h : r ≠ []) :
    to_string r = tabJoin (r.map lexCast) := by
  rw [to_string, get_string_eq, List.nil_append]
  have : (r.map fun f => lexCast f ++ ['\t']) = ((r.map lexCast).map fun t => t ++ ['\t']) := by
    simp
  rw [this, joinTab_dropLast _ (by simpa using h)]

theorem lexCast_tab_free {f : FieldVal} (h : tabFreeField f = true) :
    '\t' ∉ lexCast f := by
  cases f with
  | text s => simpa [tabFreeField, lexCast] using h
  | int32 n =>
    simp only [lexCast, intToChars]
    by_cases hn : n < 0
    · rw [if_pos hn]
      intro hmem
      rcases List.mem_cons.mp hmem with h1 | h2
      · exact absurd h1 (by decide)
      · exact tab_not_mem_natToChars _ h2
    · rw [if_neg hn]
      exact tab_not_mem_natToChars _
  | ch c =>
    have : c ≠ '\t' := by simpa [tabFreeField] using h
    simp [lexCast, this]
    intro hc
    exact absurd hc.symm this

/-! ## Splitting lemmas -/

theorem splitTab_no_tab : ∀ t : List Char, '\t' ∉ t → splitTab t = [t] := by
  intro t
  induction t with
  | nil => intro _; rfl
  | cons c cs ih =>
    intro h
    have hc : ¬ c = '\t' := fun hc => h (by simp [hc])
    have hcs : '\t' ∉ cs := fun hm => h (List.mem_cons_of_mem c hm)
    rw [splitTab, if_neg hc, ih hcs]

theorem splitTab_append : ∀ t s : List Char, '\t' ∉ t →
    splitTab (t ++ '\t' :: s) = t :: splitTab s := by
  intro t
  induction t with
  | nil =>
    intro s _
    show splitTab ('\t' :: s) = [] :: splitTab s
    rw [splitTab, if_pos rfl]
  | cons c cs ih =>
    intro s h
    have hc : ¬ c = '\t' := fun hc => h (by simp [hc])
    have hcs : '\t' ∉ cs := fun hm => h (List.mem_cons_of_mem c hm)
    show splitTab (c :: (cs ++ '\t' :: s)) = (c :: cs) :: splitTab s
    rw [splitTab, if_neg hc, ih s hcs]

theorem splitTab_tabJoin : ∀ ts : List (List Char), ts ≠ [] →
    (∀ t ∈ ts, '\t' ∉ t) → splitTab (tabJoin ts) = ts := by
  intro ts
  induction ts with
  | nil => intro h; exact absurd rfl h
  | cons t ts ih =>
    intro _ hfree
    cases ts with
    | nil => exact splitTab_no_tab t (hfree t (by simp))
    | cons t2 ts2 =>
      show splitTab (t ++ '\t' :: tabJoin (t2 :: ts2)) = t :: t2 :: ts2
      rw [splitTab_append _ _ (hfree t (by simp)),
        ih (by simp) (fun x hx => hfree x (List.mem_cons_of_mem t hx))]

theorem count_tabJoin : ∀ ts : List (List Char), ts ≠ [] →
    (∀ t ∈ ts, '\t' ∉ t) → (tabJoin ts).count '\t' = ts.length - 1 := by
  intro ts
  induction ts with
  | nil => intro h; exact absurd rfl h
  | cons t ts ih =>
    intro _ hfree
    have ht : List.count '\t' t = 0 := List.count_eq_zero.mpr (hfree t (by simp))
    cases ts with
    | nil => simpa [tabJoin] using ht
    | cons t2 ts2 =>
      show List.count '\t' (t ++ '\t' :: tabJoin (t2 :: ts2)) = _
      rw [List.count_append, ht, List.count_cons]
      rw [ih (by simp) (fun x hx => hfree x (List.mem_cons_of_mem t hx))]
      simp

/-! ## Parsing lemmas -/

theorem take_succ_set {α : Type} (a : α) :
    ∀ (l : List α) (n : Nat), n < l.length →
      (l.set n a).take (n + 1) = l.take n ++ [a] := by
  intro l
  induction l with
  | nil => intro n h; simp at h
  | cons x xs ih =>
    intro n h
    cases n with
    | zero => simp
    | succ m =>
      have hm : m < xs.length := by simpa using h
      show ((x :: xs).set (m + 1) a).take (m + 2) = (x :: xs).take (m + 1) ++ [a]
      rw [List.set_cons_succ, List.take_succ_cons, List.take_succ_cons, ih m hm]
      rfl

theorem get?_of_drop_eq_cons {α : Type} {toks : List α} {n : Nat} {y : α}
    {ys : List α} (h : toks.drop n = y :: ys) : toks.get? n = some y := by
  have hg := List.getElem?_drop toks n 0
  rw [h] at hg
  rw [List.get?_eq_getElem?]
  simpa using hg.symm

/-- Binding back a token list produced by `lexCast`: `to_tuple`, started at
position `n` over the schema of the remaining fields, overwrites positions
`n, n+1, …` of the target with exactly those fields and succeeds. -/
theorem to_tuple_binds : ∀ (r' : List FieldVal) (n : Nat)
    (toks : List (List Char)) (acc : List FieldVal),
    r'.all wfField = true →
    toks.drop n = r'.map lexCast →
    acc.length = n + r'.length →
    to_tuple (r'.map tyOf) n toks acc = .ok (acc.take n ++ r') := by
  intro r'
  induction r' with
  | nil =>
    intro n toks acc _ _ hlen
    simp only [List.length_nil, Nat.add_zero] at hlen
    show ParseOutcome.ok acc = _
    rw [← hlen, List.take_length, List.append_nil]
  | cons f fs ih =>
    intro n toks acc hwf hdrop hlen
    have hnlt : n < acc.length := by simp at hlen; omega
    have hget : toks.get? n = some (lexCast f) := by
      rw [List.map_cons] at hdrop
      exact get?_of_drop_eq_cons hdrop
    have hdrop' : toks.drop (n + 1) = fs.map lexCast := by
      have : List.drop 1 (toks.drop n) = List.drop 1 ((f :: fs).map lexCast) := by
        rw [hdrop]
      rw [List.drop_drop] at this
      simpa using this
    have hwf' : fs.all wfField = true := by
      simp only [List.all_cons, Bool.and_eq_true] at hwf
      exact hwf.2
    have htake : ∀ g : FieldVal, (acc.set n g).take (n + 1) = acc.take n ++ [g] :=
      fun g => take_succ_set g acc n hnlt
    have hlen' : ∀ g : FieldVal, (acc.set n g).length = (n + 1) + fs.length := by
      intro g
      rw [List.length_set]
      simp at hlen
      omega
    have happ : ∀ g : FieldVal, (acc.set n g).take (n + 1) ++ fs = acc.take n ++ g :: fs := by
      intro g
      rw [htake g]
      simp
    cases f with
    | text s =>
      show to_tuple (FieldTy.text :: fs.map tyOf) n toks acc = _
      rw [to_tuple, hget]
      show to_tuple (fs.map tyOf) (n + 1) toks (acc.set n (.text s)) = _
      rw [ih (n + 1) toks _ hwf' hdrop' (hlen' _), happ]
    | int32 v =>
      have hv : wfField (FieldVal.int32 v) = true := by
        simp only [List.all_cons, Bool.and_eq_true] at hwf
        exact hwf.1
      have hrange : -2147483648 ≤ v ∧ v ≤ 2147483647 := by
        simpa [wfField] using hv
      show to_tuple (FieldTy.int32 :: fs.map tyOf) n toks acc = _
      rw [to_tuple, hget]
      show (match stoi (lexCast (FieldVal.int32 v)) with
        | .error e => ParseOutcome.exn e acc
        | .ok w => to_tuple (fs.map tyOf) (n + 1) toks (acc.set n (.int32 w))) = _
      rw [show lexCast (FieldVal.int32 v) = intToChars v from rfl,
        stoi_intToChars hrange.1 hrange.2]
      show to_tuple (fs.map tyOf) (n + 1) toks (acc.set n (.int32 v)) = _
      rw [ih (n + 1) toks _ hwf' hdrop' (hlen' _), happ]
    | ch c =>
      show to_tuple (FieldTy.ch :: fs.map tyOf) n toks acc = _
      rw [to_tuple, hget]
      show to_tuple (fs.map tyOf) (n + 1) toks (acc.set n (.ch c)) = _
      rw [ih (n + 1) toks _ hwf' hdrop' (hlen' _), happ]

/-! ## Ordering lemmas -/

theorem charLtB_true {a b : Char} : charLtB a b = true ↔ a < b := by
  simp [charLtB]

theorem charLtB_false {a b : Char} : charLtB a b = false ↔ ¬ a < b := by
  simp [charLtB]

theorem strLtB_irrefl : ∀ a : List Char, strLtB a a = false := by
  intro a
  induction a with
  | nil => rfl
  | cons c cs ih =>
    rw [strLtB, if_neg, if_neg]
    · exact ih
    · rw [charLtB_true]; exact lt_irrefl c
    · rw [charLtB_true]; exact lt_irrefl c

theorem strLtB_asymm : ∀ a b : List Char, strLtB a b = true → strLtB b a = false := by
  intro a
  induction a with
  | nil =>
    intro b h
    cases b with
    | nil => cases h
    | cons y ys => rfl
  | cons x xs ih =>
    intro b h
    cases b with
    | nil => cases h
    | cons y ys =>
      rw [strLtB] at h
      by_cases hxy : charLtB x y = true
      · have hyx : charLtB y x = false :=
          charLtB_false.mpr (lt_asymm (charLtB_true.mp hxy))
        rw [strLtB, hyx]
        simp [hxy]
      · rw [if_neg hxy] at h
        by_cases hyx : charLtB y x = true
        · rw [if_pos hyx] at h; cases h
        · rw [if_neg hyx] at h
          rw [strLtB, if_neg hyx, if_neg hxy]
          exact ih ys h

theorem strLtB_connex : ∀ a b : List Char,
    strLtB a b = false → strLtB b a = false → a = b := by
  intro a
  induction a with
  | nil =>
    intro b h1 _
    cases b with
    | nil => rfl
    | cons y ys => cases h1
  | cons x xs ih =>
    intro b h1 h2
    cases b with
    | nil => cases h2
    | cons y ys =>
      by_cases hxy : charLtB x y = true
      · rw [strLtB, if_pos hxy] at h1; cases h1
      · by_cases hyx : charLtB y x = true
        · rw [strLtB, if_pos hyx] at h2; cases h2
        · have hx : x = y :=
            le_antisymm (not_lt.mp (charLtB_true.not.mp hyx))
              (not_lt.mp (charLtB_true.not.mp hxy))
          rw [strLtB, if_neg hxy, if_neg hyx] at h1
          rw [strLtB, if_neg hyx, if_neg hxy] at h2
          rw [hx, ih ys h1 h2]

theorem strLtB_trans : ∀ a b c : List Char,
    strLtB a b = true → strLtB b c = true → strLtB a c = true := by
  intro a
  induction a with
  | nil =>
    intro b c h1 h2
    cases b with
    | nil => cases h1
    | cons y ys =>
      cases c with
      | nil => cases h2
      | cons z zs => rfl
  | cons x xs ih =>
    intro b c h1 h2
    cases b with
    | nil => cases h1
    | cons y ys =>
      cases c with
      | nil => cases h2
      | cons z zs =>
        rw [strLtB] at h1 h2 ⊢
        by_cases hxy : charLtB x y = true
        · by_cases hyz : charLtB y z = true
          · rw [if_pos (charLtB_true.mpr
              (lt_trans (charLtB_true.mp hxy) (charLtB_true.mp hyz)))]
          · by_cases hzy : charLtB z y = true
            · rw [if_neg hyz, if_pos hzy] at h2
              cases h2
            · have hyzeq : y = z :=
                le_antisymm (not_lt.mp (charLtB_true.not.mp hzy))
                  (not_lt.mp (charLtB_true.not.mp hyz))
              rw [if_pos (charLtB_true.mpr (hyzeq ▸ charLtB_true.mp hxy))]
        · by_cases hyx : charLtB y x = true
          · rw [if_neg hxy, if_pos hyx] at h1
            cases h1
          · have hxyeq : x = y :=
              le_antisymm (not_lt.mp (charLtB_true.not.mp hyx))
                (not_lt.mp (charLtB_true.not.mp hxy))
            rw [if_neg hxy, if_neg hyx] at h1
            by_cases hyz : charLtB y z = true
            · rw [if_pos (charLtB_true.mpr (hxyeq ▸ charLtB_true.mp hyz))]
            · by_cases hzy : charLtB z y = true
              · rw [if_neg hyz, if_pos hzy] at h2
                cases h2
              · rw [if_neg hyz, if_neg hzy] at h2
                rw [hxyeq, if_neg hyz, if_neg hzy]
                exact ih ys zs h1 h2

theorem intLtB_true {a b : Int} : (decide (a < b)) = true ↔ a < b := by simp

theorem fieldLt_irrefl : ∀ f : FieldVal, fieldLt f f = false := by
  intro f
  cases f with
  | text s => simpa [fieldLt] using strLtB_irrefl s
  | int32 n => simp [fieldLt]
  | ch c => simpa [fieldLt] using charLtB_false.mpr (lt_irrefl c)

theorem fieldLt_asymm : ∀ f g : FieldVal, fieldLt f g = true → fieldLt g f = false := by
  intro f g h
  cases f <;> cases g <;> simp [fieldLt] at h ⊢
  case text.text a b => simpa using strLtB_asymm a b h
  case int32.int32 a b => omega
  case ch.ch a b =>
    have := lt_asymm (charLtB_true.mp h)
    simpa [charLtB] using this

theorem fieldLt_connex : ∀ f g : FieldVal, tyOf f = tyOf g →
    fieldLt f g = false → fieldLt g f = false → f = g := by
  intro f g hty h1 h2
  cases f <;> cases g <;> simp [tyOf] at hty <;> simp [fieldLt] at h1 h2 ⊢
  case text.text a b => exact strLtB_connex a b h1 h2
  case int32.int32 a b => omega
  case ch.ch a b =>
    have hab : ¬ a < b := by simpa [charLtB] using h1
    have hba : ¬ b < a := by simpa [charLtB] using h2
    exact le_antisymm (not_lt.mp hba) (not_lt.mp hab)

theorem fieldLt_trans : ∀ f g k : FieldVal,
    fieldLt f g = true → fieldLt g k = true → fieldLt f k = true := by
  intro f g k h1 h2
  cases f <;> cases g <;> cases k <;> simp [fieldLt] at h1 h2 ⊢
  case text.text.text a b c => exact strLtB_trans a b c h1 h2
  case int32.int32.int32 a b c => omega
  case ch.ch.ch a b c =>
    have := lt_trans (charLtB_true.mp h1) (charLtB_true.mp h2)
    simpa [charLtB] using this

theorem bedLt_irrefl : ∀ a : List FieldVal, bedLt a a = false := by
  intro a
  induction a with
  | nil => rfl
  | cons x xs ih =>
    rw [bedLt, if_neg, if_neg]
    · exact ih
    · rw [fieldLt_irrefl]; exact Bool.false_ne_true
    · rw [fieldLt_irrefl]; exact Bool.false_ne_true

theorem bedLt_asymm : ∀ a b : List FieldVal, bedLt a b = true → bedLt b a = false := by
  intro a
  induction a with
  | nil =>
    intro b h
    cases b with
    | nil => cases h
    | cons y ys => rfl
  | cons x xs ih =>
    intro b h
    cases b with
    | nil => cases h
    | cons y ys =>
      rw [bedLt] at h
      by_cases hxy : fieldLt x y = true
      · have hyx : fieldLt y x = false := fieldLt_asymm x y hxy
        rw [bedLt, hyx]
        simp [hxy]
      · rw [if_neg hxy] at h
        by_cases hyx : fieldLt y x = true
        · rw [if_pos hyx] at h; cases h
        · rw [if_neg hyx] at h
          rw [bedLt, if_neg hyx, if_neg hxy]
          exact ih ys h

theorem bedLt_connex : ∀ a b : List FieldVal, a.map tyOf = b.map tyOf →
    bedLt a b = false → bedLt b a = false → a = b := by
  intro a
  induction a with
  | nil =>
    intro b hty _ _
    cases b with
    | nil => rfl
    | cons y ys => simp at hty
  | cons x xs ih =>
    intro b hty h1 h2
    cases b with
    | nil => simp at hty
    | cons y ys =>
      simp only [List.map_cons, List.cons.injEq] at hty
      by_cases hxy : fieldLt x y = true
      · rw [bedLt, if_pos hxy] at h1; cases h1
      · by_cases hyx : fieldLt y x = true
        · rw [bedLt, if_pos hyx] at h2; cases h2
        · have hx : x = y :=
            fieldLt_connex x y hty.1 (Bool.not_eq_true _ ▸ hxy)
              (Bool.not_eq_true _ ▸ hyx)
          rw [bedLt, if_neg hxy, if_neg hyx] at h1
          rw [bedLt, if_neg hyx, if_neg hxy] at h2
          rw [hx, ih ys hty.2 h1 h2]

theorem bedLt_trans : ∀ a b c : List FieldVal,
    a.map tyOf = b.map tyOf → b.map tyOf = c.map tyOf →
    bedLt a b = true → bedLt b c = true → bedLt a c = true := by
  intro a
  induction a with
  | nil =>
    intro b c _ _ h1 h2
    cases b with
    | nil => cases h1
    | cons y ys =>
      cases c with
      | nil => cases h2
      | cons z zs => rfl
  | cons x xs ih =>
    intro b c htab htbc h1 h2
    cases b with
    | nil => cases h1
    | cons y ys =>
      cases c with
      | nil => cases h2
      | cons z zs =>
        simp only [List.map_cons, List.cons.injEq] at htab htbc
        rw [bedLt] at h1 h2 ⊢
        by_cases hxy : fieldLt x y = true
        · by_cases hyz : fieldLt y z = true
          · rw [if_pos (fieldLt_trans x y z hxy hyz)]
          · by_cases hzy : fieldLt z y = true
            · rw [if_neg hyz, if_pos hzy] at h2
              cases h2
            · have hyzeq : y = z :=
                fieldLt_connex y z htbc.1 (Bool.not_eq_true _ ▸ hyz)
                  (Bool.not_eq_true _ ▸ hzy)
              rw [if_pos (hyzeq ▸ hxy)]
        · by_cases hyx : fieldLt y x = true
          · rw [if_neg hxy, if_pos hyx] at h1
            cases h1
          · have hxyeq : x = y :=
              fieldLt_connex x y htab.1 (Bool.not_eq_true _ ▸ hxy)
                (Bool.not_eq_true _ ▸ hyx)
            rw [if_neg hxy, if_neg hyx] at h1
            by_cases hyz : fieldLt y z = true
            · rw [if_pos (hxyeq ▸ hyz)]
            · by_cases hzy : fieldLt z y = true
              · rw [if_neg hyz, if_pos hzy] at h2
                cases h2
              · rw [if_neg hyz, if_neg hzy] at h2
                rw [hxyeq, if_neg hyz, if_neg hzy]
                exact ih ys zs htab.2 htbc.2 h1 h2

/-- `bedLt` coincides with the canonical lexicographic order (`List.Lex`) of
the fields under the field-wise order, for records of one schema. -/
theorem bedLt_lex : ∀ a b : List FieldVal, a.map tyOf = b.map tyOf →
    (bedLt a b = true ↔ List.Lex (fun x y => fieldLt x y = true) a b) := by
  intro a
  induction a with
  | nil =>
    intro b hty
    cases b with
    | nil =>
      constructor
      · intro h; cases h
      · intro h; cases h
    | cons y ys => simp at hty
  | cons x xs ih =>
    intro b hty
    cases b with
    | nil => simp at hty
    | cons y ys =>
      simp only [List.map_cons, List.cons.injEq] at hty
      constructor
      · intro h
        rw [bedLt] at h
        by_cases hxy : fieldLt x y = true
        · exact List.Lex.rel hxy
        · rw [if_neg hxy] at h
          by_cases hyx : fieldLt y x = true
          · rw [if_pos hyx] at h; cases h
          · rw [if_neg hyx] at h
            have hx : x = y :=
              fieldLt_connex x y hty.1 (Bool.not_eq_true _ ▸ hxy)
                (Bool.not_eq_true _ ▸ hyx)
            rw [hx]
            exact List.Lex.cons ((ih ys hty.2).mp h)
      · intro h
        cases h with
        | rel hr => rw [bedLt, if_pos hr]
        | cons htail =>
          rw [bedLt, if_neg, if_neg]
          · exact (ih ys hty.2).mpr htail
          · rw [fieldLt_irrefl]; exact Bool.false_ne_true
          · rw [fieldLt_irrefl]; exact Bool.false_ne_true

/-! ## Batch write lemma -/

theorem dump_foldl : ∀ (c : List (List FieldVal)) (init : List Char),
    c.foldl (fun s i => s ++ (to_string i ++ ['\n'])) init
      = init ++ (c.map fun r => to_string r ++ ['\n']).flatten := by
  intro c
  induction c with
  | nil => intro init; simp
  | cons r rs ih =>
    intro init
    rw [List.foldl_cons, ih]
    simp

/-! ## Claim theorems -/

/-- C1 (amended): for every record constructible under a given schema with at
least one field, whose text fields contain no tab character and whose
single-character fields are not the tab character, parsing the formatted text
of the record — `to_tuple` applied to the tab-split of `to_string` — rebinds
exactly the original field values into any same-shape target and succeeds:
parse (format r) = r.  (The zero-field schema is excluded: there the source's
`pop_back` on an empty string is undefined behaviour.) -/
theorem c1_round_trip (sch : List FieldTy) (r r0 : List FieldVal)
    (hc : conforms r sch) (hs : sch ≠ []) (hw : r.all wfField = true)
    (ht : r.all tabFreeField = true) (h0 : r0.length = r.length) :
    to_tuple sch 0 (splitTab (to_string r)) r0 = ParseOutcome.ok r := by
  subst hc
  cases r with
  | nil => exact absurd rfl hs
  | cons f fs =>
    have hne : f :: fs ≠ ([] : List FieldVal) := by simp
    have hsplit : splitTab (to_string (f :: fs)) = (f :: fs).map lexCast := by
      rw [to_string_eq _ hne]
      apply splitTab_tabJoin
      · simp
      · intro t htmem
        rw [List.mem_map] at htmem
        obtain ⟨f', hf', rfl⟩ := htmem
        rw [List.all_eq_true] at ht
        exact lexCast_tab_free (ht f' hf')
    rw [hsplit]
    have hb := to_tuple_binds (f :: fs) 0 ((f :: fs).map lexCast) r0 hw
      (by simp) (by simpa using h0)
    simpa using hb

/-- Witness for C1: the canonical record ("chr1", 100, 200) round-trips into a
default-constructed target. -/
theorem c1_round_trip_witness :
    conforms [FieldVal.text "chr1".toList, FieldVal.int32 100, FieldVal.int32 200]
      canonicalSchema
    ∧ canonicalSchema ≠ []
    ∧ [FieldVal.text "chr1".toList, FieldVal.int32 100, FieldVal.int32 200].all
        wfField = true
    ∧ [FieldVal.text "chr1".toList, FieldVal.int32 100, FieldVal.int32 200].all
        tabFreeField = true
    ∧ to_tuple canonicalSchema 0
        (splitTab (to_string
          [FieldVal.text "chr1".toList, FieldVal.int32 100, FieldVal.int32 200]))
        [FieldVal.text [], FieldVal.int32 0, FieldVal.int32 0]
      = ParseOutcome.ok
          [FieldVal.text "chr1".toList, FieldVal.int32 100, FieldVal.int32 200] :=
  ⟨by decide, by decide, by decide, by decide,
    c1_round_trip canonicalSchema _ _ (by decide) (by decide) (by decide) (by decide)
      (by decide)⟩

/-- Counterexample to C1 as stated: the record ("x\t5", 100, 200) is
constructible under the canonical schema, but parsing its formatted text does
not yield it back (the tab inside the text field shifts every token). -/
theorem c1_counter :
    ¬ (to_tuple canonicalSchema 0
        (splitTab (to_string
          [FieldVal.text "x\t5".toList, FieldVal.int32 100, FieldVal.int32 200]))
        [FieldVal.text "x\t5".toList, FieldVal.int32 100, FieldVal.int32 200]
      = ParseOutcome.ok
          [FieldVal.text "x\t5".toList, FieldVal.int32 100, FieldVal.int32 200]) := by
  decide

/-- C2 (code behaviour at the claim's input): `std::stoi` applied to the token
"12a" does not fail — it truncates at the first non-digit and returns 12, and
`to_tuple` silently binds that value into the int32 field. -/
theorem c2_stoi_truncates :
    stoi "12a".toList = Except.ok 12
    ∧ to_tuple [FieldTy.int32] 0 ["12a".toList] [FieldVal.int32 0]
      = ParseOutcome.ok [FieldVal.int32 12] :=
  ⟨rfl, rfl⟩

/-- C3 (code behaviour at the claim's input): parsing the 2-token line
"chr1\t100" against the 3-field canonical schema makes `to_tuple` index the
token vector out of bounds (undefined behaviour) after having overwritten the
first two fields; no FieldCountMismatch error is detected or surfaced. -/
theorem c3_short_line_oob :
    to_tuple canonicalSchema 0 (splitTab "chr1\t100".toList)
      [FieldVal.text "x".toList, FieldVal.int32 7, FieldVal.int32 9]
    = ParseOutcome.oob
        [FieldVal.text "chr1".toList, FieldVal.int32 100, FieldVal.int32 9] :=
  rfl

/-- C4: when no line is available (end of stream), `get_obj` returns the
target record unchanged; end of stream is a normal terminal condition. -/
theorem c4_eof_unchanged (sch : List FieldTy) (r : List FieldVal) :
    get_obj sch [] r = ([], GetObjOutcome.eof r) :=
  rfl

/-- C5: the int32 boundary values 2147483647 and -2147483648 parse exactly and
format back to the same text; 2147483648 overflows and `std::stoi` reports it
by throwing `std::out_of_range`, never binding a wrapped value. -/
theorem c5_int_boundary :
    to_tuple [FieldTy.int32] 0 ["2147483647".toList] [FieldVal.int32 0]
      = ParseOutcome.ok [FieldVal.int32 2147483647]
    ∧ to_string [FieldVal.int32 2147483647] = "2147483647".toList
    ∧ to_tuple [FieldTy.int32] 0 ["-2147483648".toList] [FieldVal.int32 0]
      = ParseOutcome.ok [FieldVal.int32 (-2147483648)]
    ∧ to_string [FieldVal.int32 (-2147483648)] = "-2147483648".toList
    ∧ to_tuple [FieldTy.int32] 0 ["2147483648".toList] [FieldVal.int32 0]
      = ParseOutcome.exn StoiErr.outOfRange [FieldVal.int32 0] :=
  ⟨rfl, rfl, rfl, rfl, rfl⟩

/-- C6 (code behaviour at the claim's input): an empty token bound to a
single-character field raises no error; `rhs[N][0]` on the empty string yields
the null character, which is silently bound into the field. -/
theorem c6_empty_char_token :
    to_tuple [FieldTy.text, FieldTy.ch] 0 (splitTab "x\t".toList)
      [FieldVal.text [], FieldVal.ch 'q']
    = ParseOutcome.ok [FieldVal.text "x".toList, FieldVal.ch '\x00'] :=
  rfl

/-- C7: `dump` emits exactly the concatenation, in container order, of each
record's formatted text followed by one newline — no reordering, filtering or
deduplication. -/
theorem c7_dump_order (c : List (List FieldVal)) :
    dump c = (c.map fun r => to_string r ++ ['\n']).flatten := by
  rw [dump, dump_foldl c []]
  simp

/-- C8: for records of one schema, `operator<` (`bedLt`) is a strict total
order — exactly one of a < b, b < a, a = b holds, and it is transitive — and
it coincides with the lexicographic left-to-right comparison of the fields
under each field type's natural order (field 0 the primary key). -/
theorem c8_total_order (sch : List FieldTy) (a b c : List FieldVal)
    (ha : conforms a sch) (hb : conforms b sch) (hc : conforms c sch) :
    ((bedLt a b = true ∧ ¬ bedLt b a = true ∧ ¬ a = b)
      ∨ (¬ bedLt a b = true ∧ bedLt b a = true ∧ ¬ a = b)
      ∨ (¬ bedLt a b = true ∧ ¬ bedLt b a = true ∧ a = b))
    ∧ (bedLt a b = true → bedLt b c = true → bedLt a c = true)
    ∧ (bedLt a b = true ↔ List.Lex (fun x y => fieldLt x y = true) a b) := by
  have htyab : a.map tyOf = b.map tyOf := by rw [ha, hb]
  have htybc : b.map tyOf = c.map tyOf := by rw [hb, hc]
  refine ⟨?_, fun h1 h2 => bedLt_trans a b c htyab htybc h1 h2, bedLt_lex a b htyab⟩
  by_cases hab : bedLt a b = true
  · left
    refine ⟨hab, ?_, ?_⟩
    · rw [bedLt_asymm a b hab]; exact Bool.false_ne_true
    · intro he; subst he; rw [bedLt_irrefl] at hab; cases hab
  · by_cases hba : bedLt b a = true
    · right; left
      refine ⟨hab, hba, ?_⟩
      intro he; subst he; rw [bedLt_irrefl] at hba; cases hba
    · right; right
      exact ⟨hab, hba, bedLt_connex a b htyab (Bool.not_eq_true _ ▸ hab)
        (Bool.not_eq_true _ ▸ hba)⟩

/-- Witness for C8 at three concrete canonical-schema records. -/
theorem c8_total_order_witness :
    conforms [FieldVal.text "chr1".toList, FieldVal.int32 100, FieldVal.int32 200]
      canonicalSchema
    ∧ conforms [FieldVal.text "chr1".toList, FieldVal.int32 150, FieldVal.int32 120]
      canonicalSchema
    ∧ conforms [FieldVal.text "chr2".toList, FieldVal.int32 0, FieldVal.int32 0]
      canonicalSchema
    ∧ (((bedLt [FieldVal.text "chr1".toList, FieldVal.int32 100, FieldVal.int32 200]
          [FieldVal.text "chr1".toList, FieldVal.int32 150, FieldVal.int32 120] = true
        ∧ ¬ bedLt [FieldVal.text "chr1".toList, FieldVal.int32 150, FieldVal.int32 120]
            [FieldVal.text "chr1".toList, FieldVal.int32 100, FieldVal.int32 200] = true
        ∧ ¬ [FieldVal.text "chr1".toList, FieldVal.int32 100, FieldVal.int32 200]
            = [FieldVal.text "chr1".toList, FieldVal.int32 150, FieldVal.int32 120])
      ∨ (¬ bedLt [FieldVal.text "chr1".toList, FieldVal.int32 100, FieldVal.int32 200]
            [FieldVal.text "chr1".toList, FieldVal.int32 150, FieldVal.int32 120] = true
        ∧ bedLt [FieldVal.text "chr1".toList, FieldVal.int32 150, FieldVal.int32 120]
            [FieldVal.text "chr1".toList, FieldVal.int32 100, FieldVal.int32 200] = true
        ∧ ¬ [FieldVal.text "chr1".toList, FieldVal.int32 100, FieldVal.int32 200]
            = [FieldVal.text "chr1".toList, FieldVal.int32 150, FieldVal.int32 120])
      ∨ (¬ bedLt [FieldVal.text "chr1".toList, FieldVal.int32 100, FieldVal.int32 200]
            [FieldVal.text "chr1".toList, FieldVal.int32 150, FieldVal.int32 120] = true
        ∧ ¬ bedLt [FieldVal.text "chr1".toList, FieldVal.int32 150, FieldVal.int32 120]
            [FieldVal.text "chr1".toList, FieldVal.int32 100, FieldVal.int32 200] = true
        ∧ [FieldVal.text "chr1".toList, FieldVal.int32 100, FieldVal.int32 200]
            = [FieldVal.text "chr1".toList, FieldVal.int32 150, FieldVal.int32 120]))
      ∧ (bedLt [FieldVal.text "chr1".toList, FieldVal.int32 100, FieldVal.int32 200]
          [FieldVal.text "chr1".toList, FieldVal.int32 150, FieldVal.int32 120] = true
        → bedLt [FieldVal.text "chr1".toList, FieldVal.int32 150, FieldVal.int32 120]
            [FieldVal.text "chr2".toList, FieldVal.int32 0, FieldVal.int32 0] = true
        → bedLt [FieldVal.text "chr1".toList, FieldVal.int32 100, FieldVal.int32 200]
            [FieldVal.text "chr2".toList, FieldVal.int32 0, FieldVal.int32 0] = true)
      ∧ (bedLt [FieldVal.text "chr1".toList, FieldVal.int32 100, FieldVal.int32 200]
          [FieldVal.text "chr1".toList, FieldVal.int32 150, FieldVal.int32 120] = true
        ↔ List.Lex (fun x y => fieldLt x y = true)
            [FieldVal.text "chr1".toList, FieldVal.int32 100, FieldVal.int32 200]
            [FieldVal.text "chr1".toList, FieldVal.int32 150, FieldVal.int32 120])) :=
  ⟨by decide, by decide, by decide,
    c8_total_order canonicalSchema _ _ _ (by decide) (by decide) (by decide)⟩

/-- C9 (amended): for every nonempty record whose text fields contain no tab
and whose char fields are not the tab character, `to_string` is exactly the
tab-join of the per-field texts — so it has exactly field_count − 1 tabs,
splits into exactly field_count tokens, and carries no trailing tab or
newline beyond the fields' own text. -/
theorem c9_format_shape (r : List FieldVal) (hne : r ≠ [])
    (ht : r.all tabFreeField = true) :
    to_string r = tabJoin (r.map lexCast)
    ∧ (to_string r).count '\t' = r.length - 1
    ∧ (splitTab (to_string r)).length = r.length := by
  have hfree : ∀ t ∈ r.map lexCast, '\t' ∉ t := by
    intro t htm
    rw [List.mem_map] at htm
    obtain ⟨f, hf, rfl⟩ := htm
    rw [List.all_eq_true] at ht
    exact lexCast_tab_free (ht f hf)
  have hmapne : r.map lexCast ≠ [] := by simpa using hne
  have hts := to_string_eq r hne
  refine ⟨hts, ?_, ?_⟩
  · rw [hts, count_tabJoin _ hmapne hfree]
    simp
  · rw [hts, splitTab_tabJoin _ hmapne hfree]
    simp

/-- Witness for C9: the canonical record formats to "chr1\t100\t200", with 2
tabs and 3 tokens. -/
theorem c9_format_shape_witness :
    ([FieldVal.text "chr1".toList, FieldVal.int32 100, FieldVal.int32 200]
      ≠ ([] : List FieldVal))
    ∧ [FieldVal.text "chr1".toList, FieldVal.int32 100, FieldVal.int32 200].all
        tabFreeField = true
    ∧ (to_string [FieldVal.text "chr1".toList, FieldVal.int32 100, FieldVal.int32 200]
        = tabJoin ([FieldVal.text "chr1".toList, FieldVal.int32 100,
            FieldVal.int32 200].map lexCast)
      ∧ (to_string [FieldVal.text "chr1".toList, FieldVal.int32 100,
            FieldVal.int32 200]).count '\t'
          = [FieldVal.text "chr1".toList, FieldVal.int32 100,
              FieldVal.int32 200].length - 1
      ∧ (splitTab (to_string [FieldVal.text "chr1".toList, FieldVal.int32 100,
            FieldVal.int32 200])).length
          = [FieldVal.text "chr1".toList, FieldVal.int32 100,
              FieldVal.int32 200].length)
    ∧ to_string [FieldVal.text "chr1".toList, FieldVal.int32 100, FieldVal.int32 200]
        = "chr1\t100\t200".toList :=
  ⟨by decide, by decide,
    c9_format_shape _ (by decide) (by decide), by decide⟩

/-- Counterexample to C9 as stated: the record ("a\tb", 100, 200) formats with
3 tab characters, not field_count − 1 = 2. -/
theorem c9_counter :
    ¬ ((to_string [FieldVal.text "a\tb".toList, FieldVal.int32 100,
          FieldVal.int32 200]).count '\t'
        = [FieldVal.text "a\tb".toList, FieldVal.int32 100,
            FieldVal.int32 200].length - 1) := by
  decide

/-- C10: parsing is non-atomic — on the line "chr1\tabc\t200" against the
canonical schema, the `stoi` exception at position 1 leaves field 0 already
overwritten with the new value while fields 1 and 2 retain their prior
values. -/
theorem c10_partial_update :
    to_tuple canonicalSchema 0 (splitTab "chr1\tabc\t200".toList)
      [FieldVal.text "old".toList, FieldVal.int32 1, FieldVal.int32 2]
    = ParseOutcome.exn StoiErr.invalidArgument
        [FieldVal.text "chr1".toList, FieldVal.int32 1, FieldVal.int32 2] :=
  rfl

end Bed
